import Mathlib

/-!
# Verification of gradient-slice

A shallow embedding of the `Gradient` iterator from `src/lib.rs` of the
gradient-slice crate, together with proofs of the specification claims.

The Rust struct `Gradient` (generic over a lifetime and `G`) owns a `Vec<G>` and walks every contiguous
window of it, width-major: all windows of width 1 (left to right), then all
of width 2, and so on.  We model the struct as a Lean structure over `List α`,
`usize` fields as `Nat`, and `Iterator::next` as a function returning the
optional yielded window together with the successor state.  The state
transition of `next` in the source mutates all cursor fields *before* the
`max_width` check, so the transition itself does not depend on `max_width`;
only the returned value does.  The embedding reproduces this faithfully.
-/

set_option maxHeartbeats 1000000
set_option maxRecDepth 8192

/-- Embedding of the Rust struct `Gradient` (src/lib.rs, lines 47-57).
`input` is the owned vector, `start`/`end_`/`width` the `usize` cursor fields
(`end` is a Lean keyword, hence `end_`), `wide` the flag, `max_width` the
optional cap.  The `PhantomData` marker carries no information and is
omitted. -/
structure Gradient (α : Type) where
  input : List α
  start : Nat
  end_ : Nat
  width : Nat
  wide : Bool
  max_width : Option Nat
deriving Repr, DecidableEq

namespace Gradient

variable {α : Type}

/-- Embedding of `Gradient::len` (src/lib.rs line 128): `self.input.len()`. -/
def len (g : Gradient α) : Nat := g.input.length

/-- Embedding of `Gradient::new` (src/lib.rs lines 132-142): `start=0, end=0,
width=1, wide=true, max_width=None`. -/
def new (s : List α) : Gradient α :=
  { input := s, start := 0, end_ := 0, width := 1, wide := true, max_width := none }

/-- Embedding of `Gradient::with_max_width` (src/lib.rs lines 89-93): clone the
receiver and set `max_width = Some(width)`. -/
def with_max_width (g : Gradient α) (width : Nat) : Gradient α :=
  { g with max_width := some width }

/-- Embedding of `Gradient::finished` (src/lib.rs lines 100-110). -/
def finished (g : Gradient α) : Bool :=
  if g.len = 0 then true
  else if g.end_ = g.len then
    if g.width = g.len then true else false
  else false

/-- Embedding of `Gradient::range` (src/lib.rs lines 124-126) as the pair of
bounds of the half-open interval `start..end`. -/
def range (g : Gradient α) : Nat × Nat := (g.start, g.end_)

/-- Embedding of `Gradient::window` (src/lib.rs lines 96-98): the slice
`&self.input[self.start..self.end]`, read totally (the elements at indices
`start`, ..., `end-1`). -/
def window (g : Gradient α) : List α :=
  (g.input.drop g.start).take (g.end_ - g.start)

/-- Rust slice indexing `&self.input[self.start..self.end]` panics when
`start > end` or `end > len`; this checked variant returns `none` exactly on
the panicking branch and `some` of the slice otherwise. -/
def windowChecked (g : Gradient α) : Option (List α) :=
  if g.start ≤ g.end_ ∧ g.end_ ≤ g.len then
    some ((g.input.drop g.start).take (g.end_ - g.start))
  else none

/-- Embedding of `<Gradient as Iterator>::next` (src/lib.rs lines 61-83),
returning the yielded value (if any) together with the successor state.
The source mutates `self` step by step:
1. return `None` if `finished` (state untouched);
2. `end += 1`;
3. if `!wide` then `wide = true; width += 1; start = 0; end = width`;
4. `start = end - width`;
5. if `end == len` then `wide = false`;
6. if `max_width` is set and `width > max_width`, return `None`
   (the mutations of steps 2-5 are kept);
7. otherwise yield `window()`. -/
def next (g : Gradient α) : Option (List α) × Gradient α :=
  if g.finished then (none, g)
  else
    let g1 := { g with end_ := g.end_ + 1 }
    let g2 := if g1.wide then g1
      else { g1 with wide := true, width := g1.width + 1, start := 0, end_ := g1.width + 1 }
    let g3 := { g2 with start := g2.end_ - g2.width }
    let g4 := if g3.end_ = g3.len then { g3 with wide := false } else g3
    match g4.max_width with
    | some m => if g4.width > m then (none, g4) else (some g4.window, g4)
    | none => (some g4.window, g4)

/-- The value produced by one call of `next`. -/
def nextVal (g : Gradient α) : Option (List α) := g.next.1

/-- The state after one call of `next`. -/
def nextState (g : Gradient α) : Gradient α := g.next.2

/-- The state after `n` calls of `next`. -/
def run (g : Gradient α) : Nat → Gradient α
  | 0 => g
  | n + 1 => (g.run n).nextState

/-- The list of values yielded by repeatedly calling `next`, stopping at the
first `None` (the Rust iterator protocol, as used by `collect`), with an
explicit fuel bound on the number of calls. -/
def produce (fuel : Nat) (g : Gradient α) : List (List α) :=
  match fuel with
  | 0 => []
  | fuel' + 1 =>
    match g.next with
    | (none, _) => []
    | (some w, g') => w :: produce fuel' g'

/-- All values the iterator yields before its first `None`.  The fuel
`len * len + 1` exceeds the maximal number of yielded windows. -/
def produceAll (g : Gradient α) : List (List α) :=
  produce (g.len * g.len + 1) g

/-- A gradient constructed by `new`, optionally configured through
`with_max_width`. -/
def init (l : List α) : Option Nat → Gradient α
  | none => new l
  | some w => (new l).with_max_width w

/-- The states reachable through the public API: construction by `new`,
any number of `next` calls, and reconfiguration by `with_max_width`
(the read-only accessors do not change the state). -/
inductive Reachable : Gradient α → Prop
  | base (l : List α) : Reachable (new l)
  | step (g : Gradient α) : Reachable g → Reachable g.nextState
  | conf (g : Gradient α) (w : Nat) : Reachable g → Reachable (g.with_max_width w)

end Gradient

/-! ## Specification-side enumeration

Modelled from the ordering contract of the spec: "for width = 1, 2, 3, … up to
`len(input)` (or `max_width`), in increasing order, emit every offset `start`
from 0 to `len(input) - width` inclusive, in increasing order, as the window
`input[start .. start+width)`". -/

/-- The window `l[s .. s+w)` of the ordering contract of the spec. -/
def windowAt (l : List α) (s w : Nat) : List α := (l.drop s).take w

/-- One width pass of the ordering contract of the spec: every offset `s` from 0 to
`l.length - w` inclusive, in increasing order.  (Empty when `w > l.length`.) -/
def widthPass (l : List α) (w : Nat) : List (List α) :=
  (List.range (l.length + 1 - w)).map (fun s => windowAt l s w)

/-- `cnt` consecutive width passes starting at width `w`: widths
`w, w+1, ..., w+cnt-1` in increasing order. -/
def passesFrom (l : List α) (w cnt : Nat) : List (List α) :=
  match cnt with
  | 0 => []
  | c + 1 => widthPass l w ++ passesFrom l (w + 1) c

/-- The full gradient of the spec: widths `1` to `W` in increasing order. -/
def gradientSpec (l : List α) (W : Nat) : List (List α) :=
  passesFrom l 1 W

namespace Gradient

variable {α : Type}

/-- The largest width the iterator can still yield from a state: `len(input)`,
cut down to `max_width` when one is configured. -/
def cap (g : Gradient α) : Nat :=
  match g.max_width with
  | none => g.len
  | some m => min m g.len

/-- The list of windows still to be yielded from a state: the rest of the
current width pass (when mid-pass, i.e. `wide = true`), then the full passes
of the remaining widths up to `cap`. -/
def specCont (g : Gradient α) : List (List α) :=
  if g.cap < g.width then []
  else
    (if g.wide then
        (List.range (g.len - g.end_)).map
          (fun i => windowAt g.input (g.end_ + 1 - g.width + i) g.width)
      else []) ++ passesFrom g.input (g.width + 1) (g.cap - g.width)

end Gradient

namespace Gradient

variable {α : Type} {g : Gradient α}

/-- `finished` holds exactly on the terminal condition of the source. -/
lemma finished_iff : g.finished = true ↔ (g.len = 0 ∨ (g.end_ = g.len ∧ g.width = g.len)) := by
  unfold finished
  split
  · simp_all
  · split
    · split <;> simp_all
    · simp_all

lemma finished_eq_false :
    g.finished = false ↔ g.len ≠ 0 ∧ ¬(g.end_ = g.len ∧ g.width = g.len) := by
  rw [← Bool.not_eq_true, finished_iff]
  tauto

/-- A finished gradient is left untouched by `next` and yields nothing. -/
lemma next_of_finished (h : g.finished = true) : g.next = (none, g) := by
  unfold next
  rw [h]
  simp

lemma nextState_of_finished (h : g.finished = true) : g.nextState = g := by
  unfold nextState
  rw [next_of_finished h]

/-- The state transition of `next` in the mid-pass case (`wide = true`):
slide the window right by one. -/
lemma nextState_of_wide (h1 : g.finished = false) (h2 : g.wide = true) :
    g.nextState = { g with start := g.end_ + 1 - g.width, end_ := g.end_ + 1,
                           wide := if g.end_ + 1 = g.input.length then false else true } := by
  unfold nextState next
  rw [h1]
  simp only [Bool.false_eq_true, if_false, h2, if_true, len]
  repeat' split
  all_goals simp_all

/-- The state transition of `next` in the pass-rollover case (`wide = false`):
move to the next width, window at offset zero. -/
lemma nextState_of_notwide (h1 : g.finished = false) (h2 : g.wide = false) :
    g.nextState = { g with start := 0, end_ := g.width + 1, width := g.width + 1,
                           wide := if g.width + 1 = g.input.length then false else true } := by
  unfold nextState next
  rw [h1]
  simp only [Bool.false_eq_true, if_false, h2, if_true, len]
  repeat' split
  all_goals simp_all

/-- The value yielded by `next` from a non-finished state, in terms of the
successor state: the window of the successor state, unless the (already
updated) width exceeds a configured `max_width`. -/
lemma nextVal_eq (h1 : g.finished = false) :
    g.nextVal = match g.max_width with
      | some m => if m < g.nextState.width then none else some g.nextState.window
      | none => some g.nextState.window := by
  cases hw : g.wide with
  | false =>
    rw [nextState_of_notwide h1 hw]
    unfold nextVal next
    rw [h1]
    cases hm : g.max_width with
    | none =>
      by_cases hc : g.width + 1 = g.input.length <;> simp [hw, hm, hc, len]
    | some m =>
      by_cases hc : g.width + 1 = g.input.length <;>
        (simp [hw, hm, hc, len]; try (split <;> simp))
  | true =>
    rw [nextState_of_wide h1 hw]
    unfold nextVal next
    rw [h1]
    cases hm : g.max_width with
    | none =>
      by_cases hc : g.end_ + 1 = g.input.length <;> simp [hw, hm, hc, len]
    | some m =>
      by_cases hc : g.end_ + 1 = g.input.length <;>
        (simp [hw, hm, hc, len]; try (split <;> simp))

/-- `next` never changes the input nor the configured `max_width`. -/
lemma nextState_input : g.nextState.input = g.input := by
  by_cases h : g.finished = true
  · rw [nextState_of_finished h]
  · rw [Bool.not_eq_true] at h
    cases hw : g.wide
    · rw [nextState_of_notwide h hw]
    · rw [nextState_of_wide h hw]

lemma nextState_max_width : g.nextState.max_width = g.max_width := by
  by_cases h : g.finished = true
  · rw [nextState_of_finished h]
  · rw [Bool.not_eq_true] at h
    cases hw : g.wide
    · rw [nextState_of_notwide h hw]
    · rw [nextState_of_wide h hw]

/-- `next` never decreases the width field. -/
lemma width_le_nextState_width : g.width ≤ g.nextState.width := by
  by_cases h : g.finished = true
  · rw [nextState_of_finished h]
  · rw [Bool.not_eq_true] at h
    cases hw : g.wide
    · rw [nextState_of_notwide h hw]; exact Nat.le_succ _
    · rw [nextState_of_wide h hw]

/-- The inductive invariant of the cursor, preserved by every `next` call. -/
def Inv (g : Gradient α) : Prop :=
  1 ≤ g.width ∧ g.width ≤ g.end_ + 1 ∧ g.end_ ≤ g.len ∧
  (g.len ≠ 0 → g.width ≤ g.len) ∧
  (g.wide = false → g.end_ = g.len) ∧
  (g.len ≠ 0 → g.wide = true → g.end_ < g.len) ∧
  g.start ≤ g.end_

lemma inv_new (l : List α) : Inv (new l) :=
  ⟨Nat.le_refl 1, Nat.le_refl 1, Nat.zero_le _, fun h => Nat.one_le_iff_ne_zero.mpr h,
   fun h => Bool.noConfusion h, fun h _ => Nat.pos_of_ne_zero h, Nat.le_refl 0⟩

lemma inv_with_max_width (h : Inv g) (w : Nat) : Inv (g.with_max_width w) := h

lemma inv_nextState (h : Inv g) : Inv g.nextState := by
  obtain ⟨h1, h2, h3, h4, h5, h6, h7⟩ := h
  by_cases hf : g.finished = true
  · rw [nextState_of_finished hf]
    exact ⟨h1, h2, h3, h4, h5, h6, h7⟩
  · rw [Bool.not_eq_true, finished_eq_false] at hf
    obtain ⟨hn, hew⟩ := hf
    have hf' : g.finished = false := finished_eq_false.mpr ⟨hn, hew⟩
    simp only [len] at h1 h2 h3 h4 h5 h6 h7 hn hew
    cases hw : g.wide with
    | false =>
      have he : g.end_ = g.input.length := h5 hw
      have hwlt : g.width < g.input.length := by
        rcases Nat.lt_or_ge g.width g.input.length with hlt | hge
        · exact hlt
        · exact absurd ⟨he, Nat.le_antisymm (h4 hn) hge⟩ hew
      rw [nextState_of_notwide hf' hw]
      unfold Inv
      by_cases hc : g.width + 1 = g.input.length <;>
        refine ⟨?_, ?_, ?_, ?_, ?_, ?_, ?_⟩ <;>
          simp [len, hc] <;> omega
    | true =>
      have he : g.end_ < g.input.length := h6 hn hw
      rw [nextState_of_wide hf' hw]
      unfold Inv
      by_cases hc : g.end_ + 1 = g.input.length <;>
        refine ⟨?_, ?_, ?_, ?_, ?_, ?_, ?_⟩ <;>
          simp [len, hc] <;> omega

/-- Every reachable state satisfies the invariant. -/
lemma inv_of_reachable (h : Reachable g) : Inv g := by
  induction h with
  | base l => exact inv_new l
  | step g _ ih => exact inv_nextState ih
  | conf g w _ ih => exact inv_with_max_width ih w

end Gradient

namespace Gradient

variable {α : Type} {g : Gradient α}

lemma cap_le_len : g.cap ≤ g.len := by
  cases hm : g.max_width <;> simp [cap, hm]

lemma cap_nextState : g.nextState.cap = g.cap := by
  unfold cap len
  rw [nextState_input, nextState_max_width]

/-- A finished state yields nothing more. -/
lemma specCont_of_finished (h : Inv g) (hf : g.finished = true) : specCont g = [] := by
  obtain ⟨h1, h2, h3, h4, h5, h6, h7⟩ := h
  rw [finished_iff] at hf
  unfold specCont
  rcases hf with hlen | ⟨he, hwid⟩
  · have hc : g.cap = 0 := by cases hm : g.max_width <;> simp [cap, hm, hlen]
    rw [if_pos (by omega)]
  · by_cases hc : g.cap < g.width
    · rw [if_pos hc]
    · have hle : g.cap ≤ g.len := cap_le_len
      have hlen0 : g.len ≠ 0 := by intro h0; rw [h0] at hwid; omega
      have hcap : g.cap = g.width := by omega
      have hw : g.wide = false := by
        cases hwd : g.wide
        · rfl
        · exact absurd (h6 hlen0 hwd) (by rw [he]; exact Nat.lt_irrefl _)
      rw [if_neg hc, hw, hcap]
      simp [passesFrom]

lemma len_nextState : g.nextState.len = g.len := by
  unfold len
  rw [nextState_input]

/-- From a non-finished state, `next` yields nothing exactly when the updated
width exceeds the cap. -/
lemma nextVal_none_iff (h : Inv g) (hf : g.finished = false) :
    g.nextVal = none ↔ g.cap < g.nextState.width := by
  obtain ⟨hn, -⟩ := finished_eq_false.mp hf
  have hinv' := inv_nextState h
  have hn' : g.nextState.len ≠ 0 := by rw [len_nextState]; exact hn
  have hwlen : g.nextState.width ≤ g.len := by
    rw [← len_nextState]; exact hinv'.2.2.2.1 hn'
  rw [nextVal_eq hf]
  cases hm : g.max_width with
  | none =>
    have hcap : g.cap = g.len := by simp [cap, hm]
    simp
    omega
  | some m =>
    have hcap : g.cap = min m g.len := by simp [cap, hm]
    by_cases hmw : m < g.nextState.width
    · simp [hmw]
      omega
    · simp [hmw]
      omega

/-- From a non-finished state whose updated width stays within the cap, `next`
yields the window of the successor state. -/
lemma nextVal_some (hf : g.finished = false) (hc : g.nextState.width ≤ g.cap) :
    g.nextVal = some g.nextState.window := by
  rw [nextVal_eq hf]
  cases hm : g.max_width with
  | none => rfl
  | some m =>
    have hcap : g.cap = min m g.len := by unfold cap; rw [hm]
    have hmw : ¬ m < g.nextState.width := by omega
    simp [hmw]

/-- When the updated width exceeds the cap nothing remains to be yielded. -/
lemma specCont_nil (hf : g.finished = false) (hc : g.cap < g.nextState.width) :
    specCont g = [] := by
  cases hw : g.wide with
  | true =>
    rw [nextState_of_wide hf hw] at hc
    unfold specCont
    rw [if_pos hc]
  | false =>
    rw [nextState_of_notwide hf hw] at hc
    simp only at hc
    unfold specCont
    by_cases hcw : g.cap < g.width
    · rw [if_pos hcw]
    · have : g.cap - g.width = 0 := by omega
      rw [if_neg hcw, hw, this]
      simp [passesFrom]

lemma range_map_succ_shift {β : Type} (f : Nat → β) (k : Nat) :
    (List.range (k + 1)).map f = f 0 :: (List.range k).map (fun i => f (i + 1)) := by
  rw [List.range_succ_eq_map, List.map_cons, List.map_map]
  rfl

/-- Yielding one more window mid-pass extends the continuation on the left. -/
lemma specCont_cons_wide (h2 : g.width ≤ g.end_ + 1) (he : g.end_ < g.input.length)
    (hw : g.wide = true) (hc : g.width ≤ g.cap) :
    specCont g = windowAt g.input (g.end_ + 1 - g.width) g.width ::
      specCont { g with start := g.end_ + 1 - g.width, end_ := g.end_ + 1,
                        wide := if g.end_ + 1 = g.input.length then false else true } := by
  have hcapR : ({ g with start := g.end_ + 1 - g.width, end_ := g.end_ + 1,
                         wide := if g.end_ + 1 = g.input.length then false
                           else true } : Gradient α).cap = g.cap := rfl
  unfold specCont
  simp only [hcapR, hw, if_true, len]
  rw [if_neg (by omega), if_neg (by omega)]
  by_cases hend : g.end_ + 1 = g.input.length
  · have hlen1 : g.input.length - g.end_ = 1 := by omega
    rw [hlen1, range_map_succ_shift]
    simp only [hend, if_pos, List.range_zero, List.map_nil, Nat.add_zero,
      Bool.false_eq_true, if_false, List.nil_append, List.cons_append]
  · have hk : g.input.length - g.end_ = (g.input.length - (g.end_ + 1)) + 1 := by omega
    rw [hk, range_map_succ_shift]
    simp only [hend, if_false, if_true, Nat.add_zero, List.cons_append]
    congr 1
    congr 1
    apply List.map_congr_left
    intro i _
    congr 1
    omega

/-- Yielding the first window of the next width pass extends the continuation
on the left. -/
lemma specCont_cons_notwide (hwlt : g.width < g.input.length) (hw : g.wide = false)
    (hc : g.width + 1 ≤ g.cap) :
    specCont g = windowAt g.input 0 (g.width + 1) ::
      specCont { g with start := 0, end_ := g.width + 1, width := g.width + 1,
                        wide := if g.width + 1 = g.input.length then false else true } := by
  have hcapR : ({ g with start := 0, end_ := g.width + 1, width := g.width + 1,
                         wide := if g.width + 1 = g.input.length then false
                           else true } : Gradient α).cap = g.cap := rfl
  unfold specCont
  simp only [hcapR, hw, Bool.false_eq_true, if_false, len, List.nil_append]
  rw [if_neg (by omega), if_neg (by omega)]
  have hsplit : g.cap - g.width = (g.cap - (g.width + 1)) + 1 := by omega
  rw [hsplit]
  simp only [passesFrom]
  unfold widthPass
  have hcnt : g.input.length + 1 - (g.width + 1) = (g.input.length - (g.width + 1)) + 1 := by
    omega
  rw [hcnt, range_map_succ_shift, List.cons_append]
  congr 1
  by_cases hend : g.width + 1 = g.input.length
  · have h0 : g.input.length - (g.width + 1) = 0 := by omega
    simp only [hend, if_pos, h0, Nat.sub_self, List.range_zero, List.map_nil,
      Bool.false_eq_true, if_false, List.nil_append]
  · simp only [hend, if_false, if_true]
    congr 1
    apply List.map_congr_left
    intro i _
    congr 1
    omega

/-- One producing `next` call peels the head off the continuation. -/
lemma specCont_cons (h : Inv g) (hf : g.finished = false) (hc : g.nextState.width ≤ g.cap) :
    specCont g = g.nextState.window :: specCont g.nextState := by
  obtain ⟨h1, h2, h3, h4, h5, h6, h7⟩ := h
  obtain ⟨hn, hew⟩ := finished_eq_false.mp hf
  cases hw : g.wide with
  | true =>
    have he : g.end_ < g.input.length := h6 hn hw
    have hwidth : g.nextState.width = g.width := by rw [nextState_of_wide hf hw]
    rw [hwidth] at hc
    have hwin : g.nextState.window = windowAt g.input (g.end_ + 1 - g.width) g.width := by
      rw [nextState_of_wide hf hw]
      show (g.input.drop (g.end_ + 1 - g.width)).take (g.end_ + 1 - (g.end_ + 1 - g.width)) =
        (g.input.drop (g.end_ + 1 - g.width)).take g.width
      congr 1
      omega
    rw [hwin, nextState_of_wide hf hw]
    exact specCont_cons_wide h2 he hw hc
  | false =>
    have he : g.end_ = g.input.length := h5 hw
    have hwlt : g.width < g.input.length := by
      simp only [len] at h4 hew
      rcases Nat.lt_or_ge g.width g.input.length with hlt | hge
      · exact hlt
      · exact absurd ⟨he, Nat.le_antisymm (h4 hn) hge⟩ hew
    have hwidth : g.nextState.width = g.width + 1 := by rw [nextState_of_notwide hf hw]
    rw [hwidth] at hc
    have hwin : g.nextState.window = windowAt g.input 0 (g.width + 1) := by
      rw [nextState_of_notwide hf hw]
      rfl
    rw [hwin, nextState_of_notwide hf hw]
    exact specCont_cons_notwide hwlt hw hc

/-- With enough fuel, `produce` computes exactly the continuation of the
state: the iterator yields precisely the windows of `specCont`. -/
lemma produce_eq : ∀ (fuel : Nat) (g : Gradient α), Inv g → (specCont g).length ≤ fuel →
    produce fuel g = specCont g := by
  intro fuel
  induction fuel with
  | zero =>
    intro g h hlen
    have hnil : specCont g = [] := List.length_eq_zero.mp (Nat.le_zero.mp hlen)
    rw [hnil]
    rfl
  | succ fuel ih =>
    intro g h hlen
    by_cases hf : g.finished = true
    · rw [specCont_of_finished h hf]
      simp [produce, next_of_finished hf]
    · rw [Bool.not_eq_true] at hf
      by_cases hc : g.nextState.width ≤ g.cap
      · have hv := nextVal_some hf hc
        have hcons := specCont_cons h hf hc
        have hnext : g.next = (some g.nextState.window, g.nextState) := by
          rw [← hv]
          rfl
        rw [hcons]
        simp only [produce, hnext]
        congr 1
        apply ih _ (inv_nextState h)
        have hlc := congrArg List.length hcons
        simp only [List.length_cons] at hlc
        omega
      · have hv : g.nextVal = none := (nextVal_none_iff h hf).mpr (by omega)
        have hnil := specCont_nil hf (by omega)
        have hnext : g.next = (none, g.nextState) := by
          rw [← hv]
          rfl
        rw [hnil]
        simp [produce, hnext]

lemma inv_init (l : List α) (mw : Option Nat) : Inv (init l mw) := by
  cases mw with
  | none => exact inv_new l
  | some W => exact inv_with_max_width (inv_new l) W

/-- The continuation of a freshly constructed gradient is the whole spec
enumeration, up to the cap. -/
lemma specCont_init (l : List α) (mw : Option Nat) :
    specCont (init l mw) = passesFrom l 1 ((init l mw).cap) := by
  have hlen : (init l mw).len = l.length := by cases mw <;> rfl
  have hw : (init l mw).width = 1 := by cases mw <;> rfl
  have he : (init l mw).end_ = 0 := by cases mw <;> rfl
  have hwd : (init l mw).wide = true := by cases mw <;> rfl
  have hin : (init l mw).input = l := by cases mw <;> rfl
  unfold specCont
  rw [hlen, hw, he, hwd, hin]
  simp only [if_true, Nat.sub_zero]
  cases hcap : (init l mw).cap with
  | zero =>
    rw [if_pos (by omega)]
    rfl
  | succ c =>
    rw [if_neg (by omega)]
    have harg : ∀ i : Nat, 0 + 1 - 1 + i = i := fun i => by omega
    simp only [harg, Nat.add_sub_cancel]
    show (List.range l.length).map (fun i => windowAt l i 1) ++ passesFrom l 2 c =
      passesFrom l 1 (c + 1)
    rw [passesFrom]
    unfold widthPass
    rw [Nat.add_sub_cancel]

lemma passesFrom_length_le (l : List α) :
    ∀ (c w : Nat), 1 ≤ w → (passesFrom l w c).length ≤ c * l.length := by
  intro c
  induction c with
  | zero => intro w _; simp [passesFrom]
  | succ c ih =>
    intro w hw
    have h1 : (widthPass l w).length ≤ l.length := by
      unfold widthPass
      rw [List.length_map, List.length_range]
      omega
    have h2 := ih (w + 1) (by omega)
    show (widthPass l w ++ passesFrom l (w + 1) c).length ≤ (c + 1) * l.length
    rw [List.length_append]
    have : (c + 1) * l.length = c * l.length + l.length := by ring
    omega

/-- `produceAll` from a fresh state computes the spec enumeration up to the
cap. -/
lemma produceAll_init (l : List α) (mw : Option Nat) :
    (init l mw).produceAll = passesFrom l 1 ((init l mw).cap) := by
  have hlen : (init l mw).len = l.length := by cases mw <;> rfl
  unfold produceAll
  rw [← specCont_init]
  apply produce_eq _ _ (inv_init l mw)
  rw [specCont_init, hlen]
  have hb := passesFrom_length_le l ((init l mw).cap) 1 (Nat.le_refl 1)
  have hcap : (init l mw).cap ≤ l.length := by
    have := cap_le_len (g := init l mw)
    rwa [hlen] at this
  have : (init l mw).cap * l.length ≤ l.length * l.length :=
    Nat.mul_le_mul_right _ hcap
  omega

end Gradient

lemma widthPass_of_gt {α : Type} {l : List α} {w : Nat} (h : l.length < w) :
    widthPass l w = [] := by
  unfold widthPass
  have h0 : l.length + 1 - w = 0 := by omega
  rw [h0]
  rfl

lemma passesFrom_of_gt {α : Type} {l : List α} :
    ∀ (c w : Nat), l.length < w → passesFrom l w c = [] := by
  intro c
  induction c with
  | zero => intro w _; rfl
  | succ c ih =>
    intro w h
    show widthPass l w ++ passesFrom l (w + 1) c = []
    rw [widthPass_of_gt h, ih (w + 1) (by omega), List.nil_append]

lemma passesFrom_append {α : Type} (l : List α) :
    ∀ (c₁ c₂ w : Nat),
      passesFrom l w (c₁ + c₂) = passesFrom l w c₁ ++ passesFrom l (w + c₁) c₂ := by
  intro c₁
  induction c₁ with
  | zero => intro c₂ w; simp [passesFrom, Nat.zero_add]
  | succ c₁ ih =>
    intro c₂ w
    have h : c₁ + 1 + c₂ = (c₁ + c₂) + 1 := by omega
    rw [h]
    show widthPass l w ++ passesFrom l (w + 1) (c₁ + c₂) =
      (widthPass l w ++ passesFrom l (w + 1) c₁) ++ passesFrom l (w + (c₁ + 1)) c₂
    have h2 : w + 1 + c₁ = w + (c₁ + 1) := by omega
    rw [ih c₂ (w + 1), List.append_assoc, h2]

/-- Passes of widths above the input length are all empty, so capping the
width range at the length does not change the enumeration. -/
lemma passesFrom_min {α : Type} (l : List α) (W : Nat) :
    passesFrom l 1 W = passesFrom l 1 (min W l.length) := by
  rcases le_total W l.length with h | h
  · rw [Nat.min_eq_left h]
  · rw [Nat.min_eq_right h]
    have hW : W = l.length + (W - l.length) := by omega
    rw [hW, passesFrom_append l l.length (W - l.length) 1,
      passesFrom_of_gt (W - l.length) (1 + l.length) (by omega), List.append_nil]

lemma passesFrom_length {α : Type} (l : List α) :
    ∀ (c w : Nat),
      (passesFrom l w c).length = ∑ i in Finset.range c, (l.length + 1 - (w + i)) := by
  intro c
  induction c with
  | zero => intro w; simp [passesFrom]
  | succ c ih =>
    intro w
    show (widthPass l w ++ passesFrom l (w + 1) c).length = _
    rw [List.length_append, ih (w + 1), Finset.sum_range_succ']
    have h1 : (widthPass l w).length = l.length + 1 - w := by
      unfold widthPass
      rw [List.length_map, List.length_range]
    have h2 : ∀ i ∈ Finset.range c,
        l.length + 1 - (w + 1 + i) = l.length + 1 - (w + (i + 1)) := fun i _ => by omega
    rw [h1, Finset.sum_congr rfl h2]
    have h3 : l.length + 1 - (w + 0) = l.length + 1 - w := by omega
    rw [h3]
    omega

/-- Triangular count: the descending sum `N + (N-1) + ... + 1`. -/
lemma sum_range_sub_eq (N : Nat) :
    (∑ i in Finset.range N, (N - i)) = N * (N + 1) / 2 := by
  have h1 : ∀ j ∈ Finset.range N, N - 1 - j + 1 = N - j := fun j hj => by
    have := Finset.mem_range.mp hj
    omega
  have h2 : (∑ j in Finset.range N, (N - 1 - j + 1)) = ∑ j in Finset.range N, (j + 1) :=
    Finset.sum_range_reflect (fun j => j + 1) N
  rw [Finset.sum_congr rfl h1] at h2
  have h3 : (∑ j in Finset.range N, (j + 1)) = (∑ j in Finset.range N, j) + N := by
    rw [Finset.sum_add_distrib, Finset.sum_const, Finset.card_range, smul_eq_mul, mul_one]
  have h4 := Finset.sum_range_id_mul_two N
  have h5 : N * (N + 1) = N * (N - 1) + 2 * N := by
    cases N with
    | zero => rfl
    | succ n =>
      simp only [Nat.succ_sub_one]
      ring
  have h6 : ((∑ j in Finset.range N, j) + N) * 2 = N * (N + 1) := by
    rw [Nat.add_mul, h4, h5]
    ring
  rw [h2, h3]
  obtain ⟨B, hB⟩ : ∃ B, N * (N + 1) = B := ⟨_, rfl⟩
  rw [hB] at h6 ⊢
  omega

/-- The sum over widths `1..W` of the claim matches the range-indexed sum of
`passesFrom_length`. -/
lemma sum_Icc_window (N W : Nat) (hW : W ≤ N) :
    (∑ w in Finset.Icc 1 W, (N - w + 1)) = ∑ i in Finset.range W, (N + 1 - (1 + i)) := by
  induction W with
  | zero => simp
  | succ W ih =>
    rw [Finset.sum_Icc_succ_top (by omega), Finset.sum_range_succ, ih (by omega)]
    omega

/-- The final window of the full enumeration is the whole input. -/
lemma passesFrom_getLast {α : Type} (l : List α) (hne : l ≠ []) :
    (passesFrom l 1 l.length).getLast? = some l := by
  have hpos : 0 < l.length := List.length_pos.mpr hne
  have hN : l.length = (l.length - 1) + 1 := by omega
  rw [hN, passesFrom_append l (l.length - 1) 1 1]
  have h1 : 1 + (l.length - 1) = l.length := by omega
  rw [h1]
  have h2 : passesFrom l l.length 1 = [l] := by
    show widthPass l l.length ++ passesFrom l (l.length + 1) 0 = [l]
    unfold widthPass
    have h3 : l.length + 1 - l.length = 0 + 1 := by omega
    rw [h3]
    simp [List.range_succ, windowAt, List.take_length, passesFrom]
  rw [h2, List.getLast?_concat]

namespace Gradient

variable {α : Type} {g : Gradient α}

lemma run_max_width (n : Nat) : (g.run n).max_width = g.max_width := by
  induction n with
  | zero => rfl
  | succ n ih =>
    show (g.run n).nextState.max_width = g.max_width
    rw [nextState_max_width, ih]

lemma inv_run (h : Inv g) (n : Nat) : Inv (g.run n) := by
  induction n with
  | zero => exact h
  | succ n ih => exact inv_nextState ih

lemma run_of_finished (hf : g.finished = true) (n : Nat) : g.run n = g := by
  induction n with
  | zero => rfl
  | succ n ih =>
    show (g.run n).nextState = g
    rw [ih]
    exact nextState_of_finished hf

lemma nextVal_of_finished (hf : g.finished = true) : g.nextVal = none := by
  unfold nextVal
  rw [next_of_finished hf]

/-- The draining property: a finished state, or a state whose width already
exceeds a configured max_width, yields nothing and steps to another such
state. -/
lemma nextVal_none_step
    (hq : g.finished = true ∨ ∃ m, g.max_width = some m ∧ m < g.width) :
    g.nextVal = none ∧
      (g.nextState.finished = true ∨
        ∃ m, g.nextState.max_width = some m ∧ m < g.nextState.width) := by
  by_cases hf : g.finished = true
  · refine ⟨nextVal_of_finished hf, Or.inl ?_⟩
    rw [nextState_of_finished hf]
    exact hf
  · rw [Bool.not_eq_true] at hf
    rcases hq with hq | ⟨m, hm, hlt⟩
    · exact absurd hq (by rw [hf]; exact Bool.noConfusion)
    · have hwle : g.width ≤ g.nextState.width := width_le_nextState_width
      constructor
      · rw [nextVal_eq hf]
        simp only [hm]
        rw [if_pos (by omega)]
      · right
        exact ⟨m, by rw [nextState_max_width]; exact hm, by omega⟩

/-- After a non-yielding call the successor state is draining. -/
lemma nextVal_none_next (hv : g.nextVal = none) :
    g.nextState.finished = true ∨
      ∃ m, g.nextState.max_width = some m ∧ m < g.nextState.width := by
  by_cases hf : g.finished = true
  · left
    rw [nextState_of_finished hf]
    exact hf
  · rw [Bool.not_eq_true] at hf
    rw [nextVal_eq hf] at hv
    cases hm : g.max_width with
    | none =>
      simp only [hm] at hv
      exact Option.noConfusion hv
    | some m =>
      simp only [hm] at hv
      right
      refine ⟨m, by rw [nextState_max_width]; exact hm, ?_⟩
      by_contra hlt
      rw [if_neg hlt] at hv
      exact Option.noConfusion hv

end Gradient

example : (Gradient.new [10, 20, 30]).produceAll =
    [[10], [20], [30], [10, 20], [20, 30], [10, 20, 30]] := by decide

/-! ## The claims -/

/-- C1: for every input sequence the iterator yields exactly the windows
input[start .. start+width) for width = 1, 2, ... up to len(input) (or
max_width when one is configured), widths in strictly increasing order with
no interleaving, and within each width every start offset from 0 to
len(input) - width inclusive in increasing order.  `gradientSpec l W` is by
construction exactly this width-major enumeration. -/
theorem C1_ordering {α : Type} (l : List α) (mw : Option Nat) :
    (Gradient.init l mw).produceAll =
      gradientSpec l (match mw with | none => l.length | some W => W) := by
  rw [Gradient.produceAll_init]
  unfold gradientSpec
  cases mw with
  | none =>
    have hcap : (Gradient.init l none).cap = l.length := rfl
    rw [hcap]
  | some W =>
    have hcap : (Gradient.init l (some W)).cap = min W l.length := rfl
    rw [hcap, ← passesFrom_min]

/-- C2: with no max_width the iterator produces exactly N(N+1)/2 windows and
the final produced window is the full input (hence has width N); with
max_width = W, 1 ≤ W ≤ N, it produces exactly the sum over w of 1..W of
(N - w + 1) windows. -/
theorem C2_count {α : Type} (l : List α) :
    ((Gradient.new l).produceAll.length = l.length * (l.length + 1) / 2 ∧
      (l ≠ [] → (Gradient.new l).produceAll.getLast? = some l)) ∧
    (∀ W : Nat, 1 ≤ W → W ≤ l.length →
      ((Gradient.new l).with_max_width W).produceAll.length =
        ∑ w in Finset.Icc 1 W, (l.length - w + 1)) := by
  have h0 : Gradient.new l = Gradient.init l none := rfl
  have hcap : (Gradient.init l none).cap = l.length := rfl
  refine ⟨⟨?_, ?_⟩, ?_⟩
  · rw [h0, Gradient.produceAll_init, hcap, passesFrom_length]
    have hc : ∀ i ∈ Finset.range l.length, l.length + 1 - (1 + i) = l.length - i :=
      fun i _ => by omega
    rw [Finset.sum_congr rfl hc, sum_range_sub_eq]
  · intro hne
    rw [h0, Gradient.produceAll_init, hcap]
    exact passesFrom_getLast l hne
  · intro W hW1 hWN
    have h1 : (Gradient.new l).with_max_width W = Gradient.init l (some W) := rfl
    have hcapW : (Gradient.init l (some W)).cap = min W l.length := rfl
    rw [h1, Gradient.produceAll_init, hcapW, Nat.min_eq_left hWN, passesFrom_length]
    exact (sum_Icc_window l.length W hWN).symm

/-- C2 witness: the counts and the final window on the concrete input
[1, 2, 3], with and without max_width 2. -/
theorem C2_count_witness :
    (Gradient.new [1, 2, 3]).produceAll.length = 6 ∧
    (Gradient.new [1, 2, 3]).produceAll.getLast? = some [1, 2, 3] ∧
    ((Gradient.new [1, 2, 3]).with_max_width 2).produceAll.length =
      ∑ w in Finset.Icc 1 2, (3 - w + 1) := by
  have h := C2_count [1, 2, 3]
  refine ⟨?_, h.1.2 (by decide), ?_⟩
  · have h1 := h.1.1
    simpa using h1
  · have h2 := h.2 2 (by decide) (by decide)
    simpa using h2

/-- C3 as frozen is false: the advance can produce no value from a state that
is not finished.  For input [1, 2, 3] with max_width 1, the fourth call to
next yields nothing although finished is false at that point. -/
theorem C3_counterexample :
    ((Gradient.init [1, 2, 3] (some 1)).run 3).nextVal = none ∧
    ((Gradient.init [1, 2, 3] (some 1)).run 3).finished = false := by
  constructor <;> rfl

/-- C3 amended: a finished state is never advanced and never yields (the
finished check runs before any state is touched); when no max_width is
configured the advance yields no value exactly when the iterator is
finished; and finished holds precisely when len(input) = 0 or end =
len(input) and width = len(input). -/
theorem C3_amended {α : Type} (g : Gradient α) :
    (g.finished = true → g.next = (none, g)) ∧
    (g.max_width = none → (g.nextVal = none ↔ g.finished = true)) ∧
    (g.finished = true ↔ (g.len = 0 ∨ (g.end_ = g.len ∧ g.width = g.len))) := by
  refine ⟨Gradient.next_of_finished, ?_, Gradient.finished_iff⟩
  intro hm
  constructor
  · intro hv
    by_contra hf
    rw [Bool.not_eq_true] at hf
    rw [Gradient.nextVal_eq hf] at hv
    simp only [hm] at hv
    exact Option.noConfusion hv
  · exact Gradient.nextVal_of_finished

/-- C3 amended, witnessed at concrete states: the empty gradient is finished
and untouched by next; on a one-element input without max_width the first
yield signal coincides with finished. -/
theorem C3_amended_witness :
    (Gradient.new ([] : List Nat)).next = (none, Gradient.new ([] : List Nat)) ∧
    ((Gradient.new ([1] : List Nat)).nextVal = none ↔
      (Gradient.new ([1] : List Nat)).finished = true) := by
  refine ⟨(C3_amended (Gradient.new ([] : List Nat))).1 (by decide),
    (C3_amended (Gradient.new ([1] : List Nat))).2.1 rfl⟩

/-- C4: after each advance that produces a window from a reachable state, the
cursor satisfies end - start = width (indeed start + width = end, so the
subtraction is exact) and 0 ≤ start ≤ end ≤ len(input). -/
theorem C4_produced_window {α : Type} (g : Gradient α) (hr : Gradient.Reachable g)
    (hp : g.nextVal.isSome = true) :
    g.nextState.end_ - g.nextState.start = g.nextState.width ∧
    g.nextState.start + g.nextState.width = g.nextState.end_ ∧
    g.nextState.start ≤ g.nextState.end_ ∧ g.nextState.end_ ≤ g.len := by
  obtain ⟨h1, h2, h3, h4, h5, h6, h7⟩ := Gradient.inv_of_reachable hr
  have hf : g.finished = false := by
    cases hfc : g.finished
    · rfl
    · rw [Gradient.nextVal_of_finished hfc] at hp
      exact Bool.noConfusion hp
  have hinv' := Gradient.inv_nextState ⟨h1, h2, h3, h4, h5, h6, h7⟩
  have hlen' : g.nextState.len = g.len := Gradient.len_nextState
  have hend' : g.nextState.end_ ≤ g.len := by
    rw [← hlen']
    exact hinv'.2.2.1
  have hstart' : g.nextState.start ≤ g.nextState.end_ := hinv'.2.2.2.2.2.2
  have key : g.nextState.start + g.nextState.width = g.nextState.end_ := by
    cases hw : g.wide with
    | true =>
      rw [Gradient.nextState_of_wide hf hw]
      show g.end_ + 1 - g.width + g.width = g.end_ + 1
      omega
    | false =>
      rw [Gradient.nextState_of_notwide hf hw]
      show 0 + (g.width + 1) = g.width + 1
      omega
  exact ⟨by omega, key, hstart', hend'⟩

/-- C4 witnessed on the first advance of a fresh two-element gradient. -/
theorem C4_produced_window_witness :
    (Gradient.new [1, 2]).nextState.end_ - (Gradient.new [1, 2]).nextState.start =
      (Gradient.new [1, 2]).nextState.width ∧
    (Gradient.new [1, 2]).nextState.start + (Gradient.new [1, 2]).nextState.width =
      (Gradient.new [1, 2]).nextState.end_ ∧
    (Gradient.new [1, 2]).nextState.start ≤ (Gradient.new [1, 2]).nextState.end_ ∧
    (Gradient.new [1, 2]).nextState.end_ ≤ (Gradient.new [1, 2]).len :=
  C4_produced_window (Gradient.new [1, 2]) (Gradient.Reachable.base _) (by decide)

example : gradientSpec [10, 20, 30] 3 =
    [[10], [20], [30], [10, 20], [20, 30], [10, 20, 30]] := by decide

example : ((Gradient.new [10, 20, 30]).with_max_width 2).produceAll =
    [[10], [20], [30], [10, 20], [20, 30]] := by decide

/-- C5 as frozen is false: for the empty input the width field (1) exceeds
len(input) = 0 and the configured max_width 0 already at construction, and
with max_width 1 on [1, 2, 3] the width field reaches 2 during the draining
calls after the last yield. -/
theorem C5_counterexample :
    ((Gradient.new ([] : List Nat)).with_max_width 0).width >
      ((Gradient.new ([] : List Nat)).with_max_width 0).len ∧
    ((Gradient.new ([] : List Nat)).with_max_width 0).max_width = some 0 ∧
    ((Gradient.new ([] : List Nat)).with_max_width 0).width > 0 ∧
    ((Gradient.init [1, 2, 3] (some 1)).run 4).max_width = some 1 ∧
    ((Gradient.init [1, 2, 3] (some 1)).run 4).width = 2 := by
  refine ⟨by decide, by decide, by decide, by decide, by decide⟩

/-- C5 amended: the width field is monotonically non-decreasing along next
calls; in every reachable state over a nonempty input it never exceeds
len(input); and every advance that produces a window leaves width at most
max_width when one is configured.  (The field itself may exceed max_width
during the non-producing draining calls, and exceeds len(input) = 0 when the
input is empty.) -/
theorem C5_amended {α : Type} (g : Gradient α) (hr : Gradient.Reachable g) :
    g.width ≤ g.nextState.width ∧
    (g.len ≠ 0 → g.width ≤ g.len) ∧
    (∀ m, g.max_width = some m → g.nextVal.isSome = true → g.nextState.width ≤ m) := by
  have hinv := Gradient.inv_of_reachable hr
  refine ⟨Gradient.width_le_nextState_width, hinv.2.2.2.1, ?_⟩
  intro m hm hp
  by_cases hf : g.finished = true
  · rw [Gradient.nextVal_of_finished hf] at hp
    exact Bool.noConfusion hp
  · rw [Bool.not_eq_true] at hf
    rw [Gradient.nextVal_eq hf] at hp
    simp only [hm] at hp
    by_contra hgt
    rw [if_pos (by omega)] at hp
    exact Bool.noConfusion hp

/-- C5 amended, witnessed on a two-element input capped at width 5. -/
theorem C5_amended_witness :
    ((Gradient.new [1, 2]).with_max_width 5).width ≤
      ((Gradient.new [1, 2]).with_max_width 5).nextState.width ∧
    ((Gradient.new [1, 2]).with_max_width 5).width ≤
      ((Gradient.new [1, 2]).with_max_width 5).len ∧
    ((Gradient.new [1, 2]).with_max_width 5).nextState.width ≤ 5 := by
  have h := C5_amended ((Gradient.new [1, 2]).with_max_width 5)
    (Gradient.Reachable.conf _ 5 (Gradient.Reachable.base _))
  exact ⟨h.1, h.2.1 (by decide), h.2.2 5 rfl (by decide)⟩

/-- C6: in every state reachable by construction, configuration and any
number of advances, the slice bounds satisfy start ≤ end ≤ len(input), so
evaluating the window view never reads outside the input: the checked
access never takes its failing branch. -/
theorem C6_bounds {α : Type} (g : Gradient α) (hr : Gradient.Reachable g) :
    g.start ≤ g.end_ ∧ g.end_ ≤ g.len ∧ g.windowChecked = some g.window := by
  have h := Gradient.inv_of_reachable hr
  refine ⟨h.2.2.2.2.2.2, h.2.2.1, ?_⟩
  unfold Gradient.windowChecked Gradient.window
  rw [if_pos ⟨h.2.2.2.2.2.2, h.2.2.1⟩]

/-- C6 witnessed after two advances of a three-element gradient. -/
theorem C6_bounds_witness :
    ((Gradient.new [1, 2, 3]).run 2).start ≤ ((Gradient.new [1, 2, 3]).run 2).end_ ∧
    ((Gradient.new [1, 2, 3]).run 2).end_ ≤ ((Gradient.new [1, 2, 3]).run 2).len ∧
    ((Gradient.new [1, 2, 3]).run 2).windowChecked =
      some ((Gradient.new [1, 2, 3]).run 2).window :=
  C6_bounds _ (Gradient.Reachable.step _ (Gradient.Reachable.step _
    (Gradient.Reachable.base _)))

/-- C7: with_max_width returns an instance whose max_width is Some(W) and
whose input, start, end, width and wide fields all equal those of the
receiver. -/
theorem C7_with_max_width {α : Type} (g : Gradient α) (W : Nat) :
    (g.with_max_width W).max_width = some W ∧
    (g.with_max_width W).input = g.input ∧
    (g.with_max_width W).start = g.start ∧
    (g.with_max_width W).end_ = g.end_ ∧
    (g.with_max_width W).width = g.width ∧
    (g.with_max_width W).wide = g.wide :=
  ⟨rfl, rfl, rfl, rfl, rfl, rfl⟩

/-- C8 as frozen is false: with max_width configured, the terminating call
mutates the cursor, so the accessors afterwards do not describe the last
produced window.  For [1, 2, 3] with max_width 1 the last produced window has
start 2 and width 1, but after the terminating fourth call the accessors
read start 0 and width 2. -/
theorem C8_counterexample :
    ((Gradient.init [1, 2, 3] (some 1)).run 3).nextVal = none ∧
    ((Gradient.init [1, 2, 3] (some 1)).run 3).start = 2 ∧
    ((Gradient.init [1, 2, 3] (some 1)).run 3).width = 1 ∧
    ((Gradient.init [1, 2, 3] (some 1)).run 4).start = 0 ∧
    ((Gradient.init [1, 2, 3] (some 1)).run 4).width = 2 := by
  refine ⟨by decide, by decide, by decide, by decide, by decide⟩

/-- C8 amended: with no max_width configured, once the advance produces no
value the state never changes again, so the read-only accessors keep
returning the values they had when the last window was produced. -/
theorem C8_amended {α : Type} (g : Gradient α) (hm : g.max_width = none)
    (hv : g.nextVal = none) : ∀ k, g.run k = g := by
  have hf : g.finished = true := by
    by_contra hf'
    rw [Bool.not_eq_true] at hf'
    rw [Gradient.nextVal_eq hf'] at hv
    simp only [hm] at hv
    exact Option.noConfusion hv
  intro k
  induction k with
  | zero => rfl
  | succ k ih =>
    show (g.run k).nextState = g
    rw [ih]
    exact Gradient.nextState_of_finished hf

/-- C8 amended, witnessed: after the single window of [1] is produced the
state is frozen across further advances. -/
theorem C8_amended_witness :
    ((Gradient.new [1]).run 1).run 2 = (Gradient.new [1]).run 1 :=
  C8_amended ((Gradient.new [1]).run 1) (by decide) (by decide) 2

/-- C9: an empty input produces zero windows under any configuration, and a
configured max_width of 0 produces zero windows on any input; in both cases
every advance call returns the end-of-sequence signal (there is no failure
path in the model: next is total). -/
theorem C9_edge_cases {α : Type} (l : List α) (mw : Option Nat) :
    (Gradient.init ([] : List α) mw).produceAll = [] ∧
    ((Gradient.new l).with_max_width 0).produceAll = [] ∧
    (∀ n, ((Gradient.init ([] : List α) mw).run n).nextVal = none) ∧
    (∀ n, (((Gradient.new l).with_max_width 0).run n).nextVal = none) := by
  have hlen0 : (Gradient.init ([] : List α) mw).len = 0 := by cases mw <;> rfl
  have hfin : (Gradient.init ([] : List α) mw).finished = true := by
    rw [Gradient.finished_iff]
    exact Or.inl hlen0
  have h1 : (Gradient.new l).with_max_width 0 = Gradient.init l (some 0) := rfl
  refine ⟨?_, ?_, ?_, ?_⟩
  · rw [Gradient.produceAll_init]
    have hcap : (Gradient.init ([] : List α) mw).cap = 0 := by
      have h := Gradient.cap_le_len (g := Gradient.init ([] : List α) mw)
      omega
    rw [hcap]
    rfl
  · rw [h1, Gradient.produceAll_init]
    have hcap : (Gradient.init l (some 0)).cap = min 0 l.length := rfl
    rw [hcap, Nat.zero_min]
    rfl
  · intro n
    rw [Gradient.run_of_finished hfin n]
    exact Gradient.nextVal_of_finished hfin
  · intro n
    rw [h1]
    have hinv := Gradient.inv_run (Gradient.inv_init l (some 0)) n
    by_cases hf : ((Gradient.init l (some 0)).run n).finished = true
    · exact Gradient.nextVal_of_finished hf
    · rw [Bool.not_eq_true] at hf
      rw [Gradient.nextVal_eq hf]
      have hm : ((Gradient.init l (some 0)).run n).max_width = some 0 := by
        rw [Gradient.run_max_width]
        rfl
      simp only [hm]
      have hw1 : 1 ≤ ((Gradient.init l (some 0)).run n).width := hinv.1
      have hw2 := Gradient.width_le_nextState_width (g := (Gradient.init l (some 0)).run n)
      rw [if_pos (by omega)]

/-- C10: once the advance produces no value, every subsequent advance also
produces no value, even though with max_width set the cursor fields may keep
changing. -/
theorem C10_none_forever {α : Type} (g : Gradient α) (hv : g.nextVal = none) (k : Nat) :
    (g.run k).nextVal = none := by
  have hQ : ∀ j, ((g.run (j + 1)).finished = true ∨
      ∃ m, (g.run (j + 1)).max_width = some m ∧ m < (g.run (j + 1)).width) := by
    intro j
    induction j with
    | zero => exact Gradient.nextVal_none_next hv
    | succ j ih => exact (Gradient.nextVal_none_step ih).2
  cases k with
  | zero => exact hv
  | succ k => exact (Gradient.nextVal_none_step (hQ k)).1

/-- C10 witnessed on the max_width example: after the first none at call 4,
calls 5 and beyond also yield none. -/
theorem C10_none_forever_witness :
    (((Gradient.init [1, 2, 3] (some 1)).run 3).run 2).nextVal = none :=
  C10_none_forever ((Gradient.init [1, 2, 3] (some 1)).run 3) (by decide) 2
